import Mathlib

/-!
Shallow embedding of the LLRB tree implementation (src/internal/llrb.go and
the public handle in the package root) together with proofs and refutations
of the specification's claims.

Modelling conventions:
- `*Node[K,V]` pointers become the inductive type `NTree K V`; the Go `nil`
  pointer is the constructor `NTree.nil`.  The `parent` field is declared in
  the source but never read or maintained, so it is omitted.
- Functions that can dereference a nil pointer (a Go panic) return `Option`:
  `none` models the panic.  Short-circuit evaluation of Go's `&&` is kept, so
  a dereference that Go skips is also skipped here.
- The recursion of `Delete`/`DeleteMin` descends into subtrees of trees that
  were first rearranged by `MoveRedLeft`/`MoveRedRight`, so it is not
  structural; the embedding uses explicit fuel.  The public handle passes
  `size root + 1`, which bounds the recursion depth because every helper
  preserves the node count and every recursive call moves to a strict
  subtree.
- Machine integers do not occur: keys are an arbitrary linearly ordered type,
  matching Go's `cmp.Ordered` constraint, and values an arbitrary type.
-/

namespace LLRB

/-- Rotation direction, mirroring the `Direction` constants `Left`/`Right`. -/
inductive Direction : Type where
  | left
  | right
deriving DecidableEq

/-- Color tag used by `SetColor`, mirroring `ColorBlack`/`ColorRed`. -/
inductive Color : Type where
  | black
  | red
deriving DecidableEq

/-- The tree of `Node[K,V]` records: `nil` is the nil pointer, and a node
carries `Key`, `Value`, the two `children` and the `isBlack` flag.  The dead
`parent` field of the source is omitted. -/
inductive NTree (K V : Type) : Type where
  | nil
  | node (key : K) (value : V) (l : NTree K V) (r : NTree K V) (isBlack : Bool)
deriving DecidableEq

variable {K V : Type}

/-- Left child, total: reading a child of the nil pointer is only done where
the source is guarded, so the `nil` case is never semantically relevant. -/
def leftT : NTree K V → NTree K V
  | .nil => .nil
  | .node _ _ l _ _ => l

/-- Right child, total counterpart of `n.Right()` under the same guard
conventions as `leftT`. -/
def rightT : NTree K V → NTree K V
  | .nil => .nil
  | .node _ _ _ r _ => r

/-- Test for the nil pointer. -/
def isNil : NTree K V → Bool
  | .nil => true
  | _ => false

/-- Mirrors `IsRed`: a nil pointer is not red, a node is red when its
`isBlack` flag is unset. -/
def IsRed : NTree K V → Bool
  | .nil => false
  | .node _ _ _ _ b => !b

/-- Node count of a subtree; used as the fuel bound for `DeleteF`. -/
def size : NTree K V → Nat
  | .nil => 0
  | .node _ _ l r _ => size l + size r + 1

section Ordered

variable [LinearOrder K]

/-- Mirrors `Search`.  The source compares `key < n.Key` and then moves to
`children[Right]`, otherwise to `children[Left]`; the embedding keeps that
orientation exactly.  On a miss the source returns the zero value of `V`,
modelled by `default`. -/
def Search [Inhabited V] : NTree K V → K → V × Bool
  | .nil, _ => (default, false)
  | .node k v l r _, key =>
    if key = k then (v, true)
    else if key < k then Search r key
    else Search l key

/-- Mirrors `SearchMin`: descend to the leftmost node and return its key and
value (the fields the callers read).  On the nil pointer the source
dereferences nil, hence `none`. -/
def SearchMin : NTree K V → Option (K × V)
  | .nil => none
  | .node k v .nil _ _ => some (k, v)
  | .node _ _ (.node k v l r b) _ _ => SearchMin (.node k v l r b)

end Ordered

/-- Mirrors `Rotate`.  The pivot `x` is the child opposite `direction`; the
source dereferences both `root` and `x`, so either being nil is a panic.
The pivot takes the old root's color and the old root becomes red. -/
def Rotate : NTree K V → Direction → Option (NTree K V)
  | .nil, _ => none
  | .node k v l r b, .left =>
    match r with
    | .nil => none
    | .node xk xv xl xr _ => some (.node xk xv (.node k v l xl false) xr b)
  | .node k v l r b, .right =>
    match l with
    | .nil => none
    | .node xk xv xl xr _ => some (.node xk xv xl (.node k v xr r false) b)

/-- Toggle the `isBlack` flag of a node's root; identity on nil, mirroring the
source's explicit nil checks on the children inside `FlipColor`. -/
def flipRoot : NTree K V → NTree K V
  | .nil => .nil
  | .node k v l r b => .node k v l r (!b)

/-- Mirrors `FlipColor`: toggles the node's color and both non-nil children's
colors.  Called on the nil pointer the source panics. -/
def FlipColor : NTree K V → Option (NTree K V)
  | .nil => none
  | .node k v l r b => some (.node k v (flipRoot l) (flipRoot r) (!b))

/-- First step of `FixUp`: left-rotate iff the right child is red. -/
def fixup1 (root : NTree K V) : Option (NTree K V) :=
  if IsRed (rightT root) then Rotate root .left else some root

/-- Second step of `FixUp`: right-rotate iff the left child and its left
child are both red (`&&` short-circuits, so `root.Left().Left()` is only read
when the left child is red, hence non-nil). -/
def fixup2 (root : NTree K V) : Option (NTree K V) :=
  if IsRed (leftT root) && IsRed (leftT (leftT root)) then Rotate root .right
  else some root

/-- Third step of `FixUp`: flip colors iff both children are red. -/
def fixup3 (root : NTree K V) : Option (NTree K V) :=
  if IsRed (leftT root) && IsRed (rightT root) then FlipColor root
  else some root

/-- Mirrors `FixUp`: the three guarded steps in order.  The source reads
`root.Right()` unconditionally, so `FixUp` of the nil pointer is a panic. -/
def FixUp (root : NTree K V) : Option (NTree K V) :=
  match root with
  | .nil => none
  | _ => (fixup1 root).bind fun r1 => (fixup2 r1).bind fun r2 => fixup3 r2

/-- Mirrors `MoveRedLeft`.  After the flip the source reads
`root.Right().Left()`, panicking when the right child is nil. -/
def MoveRedLeft (root : NTree K V) : Option (NTree K V) :=
  (FlipColor root).bind fun root =>
    match root with
    | .nil => none
    | .node k v l r b =>
      match r with
      | .nil => none
      | .node rk rv rl rr rb =>
        if IsRed rl then
          (Rotate (.node rk rv rl rr rb) .right).bind fun r' =>
            (Rotate (.node k v l r' b) .left).bind fun root' =>
              FlipColor root'
        else some (.node k v l r b)

/-- Mirrors `MoveRedRight`.  After the flip the source reads
`root.Left().Left()`, panicking when the left child is nil.  Note the source
does not flip colors again after the rotation. -/
def MoveRedRight (root : NTree K V) : Option (NTree K V) :=
  (FlipColor root).bind fun root =>
    match root with
    | .nil => none
    | .node k v l r b =>
      match l with
      | .nil => none
      | .node _ _ ll _ _ =>
        if IsRed ll then Rotate (.node k v l r b) .right
        else some (.node k v l r b)

section Ordered

variable [LinearOrder K]

/-- Mirrors `Insert`: a nil root becomes a fresh red node (no fix-up on that
frame); an equal key overwrites the value in place; otherwise recurse on the
side chosen by the comparison.  Every non-leaf frame ends in `FixUp`. -/
def Insert : NTree K V → K → V → Option (NTree K V)
  | .nil, key, value => some (.node key value .nil .nil false)
  | .node k v l r b, key, value =>
    if key = k then FixUp (.node k value l r b)
    else if key < k then
      match Insert l key value with
      | none => none
      | some l' => FixUp (.node k v l' r b)
    else
      match Insert r key value with
      | none => none
      | some r' => FixUp (.node k v l r' b)

/-- Mirrors `DeleteMin` with explicit fuel: nil root is a panic (the source
reads `root.Left()`), a missing left child deletes the root, and otherwise
the `MoveRedLeft`-guarded left descent runs followed by `FixUp`. -/
def DeleteMinF : Nat → NTree K V → Option (NTree K V)
  | 0, _ => none
  | _ + 1, .nil => none
  | fuel + 1, .node k v l r b =>
    if isNil l then some .nil
    else
      match (if !IsRed l && !IsRed (leftT l) then MoveRedLeft (.node k v l r b)
             else some (.node k v l r b)) with
      | none => none
      | some .nil => none
      | some (.node k1 v1 l1 r1 b1) =>
        match DeleteMinF fuel l1 with
        | none => none
        | some l2 => FixUp (.node k1 v1 l2 r1 b1)

/-- Mirrors `Delete` with explicit fuel.  A nil root is a panic (the source
compares `key < root.Key`).  In the `key < root.Key` branch the guard
`!IsRed(root.Left()) && !IsRed(root.Left().Left())` short-circuits: the inner
dereference of `root.Left()` only happens when the left child is black, and
panics when it is nil.  The remaining branches mirror the source line by
line, including reading the in-order successor via `SearchMin` and removing
it via `DeleteMin`. -/
def DeleteF : Nat → NTree K V → K → Option (NTree K V)
  | 0, _, _ => none
  | _ + 1, .nil, _ => none
  | fuel + 1, .node k v l r b, key =>
    if key < k then
      match (if IsRed l then some false
             else match l with
                  | .nil => none
                  | .node _ _ ll _ _ => some (!IsRed ll)) with
      | none => none
      | some cond =>
        match (if cond then MoveRedLeft (.node k v l r b)
               else some (.node k v l r b)) with
        | none => none
        | some .nil => none
        | some (.node k1 v1 l1 r1 b1) =>
          match DeleteF fuel l1 key with
          | none => none
          | some l2 => FixUp (.node k1 v1 l2 r1 b1)
    else
      match (if IsRed l then Rotate (.node k v l r b) .right
             else some (.node k v l r b)) with
      | none => none
      | some .nil => none
      | some (.node k1 v1 l1 r1 b1) =>
        if key = k1 && isNil r1 then some .nil
        else
          match (if !IsRed l1 && !IsRed r1 then MoveRedRight (.node k1 v1 l1 r1 b1)
                 else some (.node k1 v1 l1 r1 b1)) with
          | none => none
          | some .nil => none
          | some (.node k2 v2 l2 r2 b2) =>
            if key = k2 then
              match SearchMin r2 with
              | none => none
              | some (mk, mv) =>
                match DeleteMinF fuel r2 with
                | none => none
                | some r3 => FixUp (.node mk mv l2 r3 b2)
            else
              match DeleteF fuel r2 key with
              | none => none
              | some r3 => FixUp (.node k2 v2 l2 r3 b2)

end Ordered

/-- Mirrors `SetColor`: sets the `isBlack` flag; dereferencing the nil
pointer is a panic. -/
def SetColor : NTree K V → Color → Option (NTree K V)
  | .nil, _ => none
  | .node k v l r _, .black => some (.node k v l r true)
  | .node k v l r _, .red => some (.node k v l r false)

/-- The public handle: holds the current root. -/
structure Tree (K V : Type) : Type where
  root : NTree K V

/-- Mirrors `NewTree`: an empty tree. -/
def NewTree : Tree K V := ⟨.nil⟩

section Ordered

variable [LinearOrder K]

/-- Mirrors the handle's `Search`: delegate to the recursive `Search`. -/
def Tree.Search [Inhabited V] (t : Tree K V) (key : K) : V × Bool :=
  LLRB.Search t.root key

/-- Mirrors the handle's `Insert`: recursive insert, then force the root
black via `SetColor`. -/
def Tree.Insert (t : Tree K V) (key : K) (value : V) : Option (Tree K V) :=
  match LLRB.Insert t.root key value with
  | none => none
  | some root =>
    match SetColor root .black with
    | none => none
    | some root => some ⟨root⟩

/-- Mirrors the handle's `Delete`: recursive delete (with sufficient fuel),
then force the root black via `SetColor` — unconditionally, even when the
recursive delete returned the nil pointer. -/
def Tree.Delete (t : Tree K V) (key : K) : Option (Tree K V) :=
  match DeleteF (size t.root + 1) t.root key with
  | none => none
  | some root =>
    match SetColor root .black with
    | none => none
    | some root => some ⟨root⟩

/-- A public-handle operation. -/
inductive Op (K V : Type) : Type where
  | ins (k : K) (v : V)
  | del (k : K)

/-- Run one public operation. -/
def applyOp [Inhabited V] (t : Tree K V) : Op K V → Option (Tree K V)
  | .ins k v => t.Insert k v
  | .del k => t.Delete k

/-- Run a list of public operations from a starting tree, failing as soon as
one of them panics. -/
def applyOps [Inhabited V] (t : Tree K V) : List (Op K V) → Option (Tree K V)
  | [] => some t
  | op :: rest =>
    match applyOp t op with
    | none => none
    | some t' => applyOps t' rest

end Ordered

/-- In-order list of the key/value entries of a subtree. -/
def inorderE : NTree K V → List (K × V)
  | .nil => []
  | .node k v l r _ => inorderE l ++ (k, v) :: inorderE r

/-- In-order list of the keys of a subtree. -/
def keysList (t : NTree K V) : List K := (inorderE t).map Prod.fst

/-- Number of black links on every path from the root to a nil position, when
that count is the same on all of them; `none` when the paths disagree. -/
def blackHeight? : NTree K V → Option Nat
  | .nil => some 0
  | .node _ _ l r b =>
    match blackHeight? l, blackHeight? r with
    | some m, some n => if m = n then some (m + (if b then 1 else 0)) else none
    | _, _ => none

/-- Perfect black balance: all root-to-nil paths cross the same number of
black links. -/
def blackBalancedB (t : NTree K V) : Bool := (blackHeight? t).isSome

/-- No red node has a red child, i.e. no two consecutive red links occur
along any path. -/
def noRedRedB : NTree K V → Bool
  | .nil => true
  | .node _ _ l r b =>
    (b || (!IsRed l && !IsRed r)) && noRedRedB l && noRedRedB r

/-- No red node has a red right child (red links lean left). -/
def noRedRedRightB : NTree K V → Bool
  | .nil => true
  | .node _ _ l r b =>
    (b || !IsRed r) && noRedRedRightB l && noRedRedRightB r

/-- The root is black (the nil tree counts as black). -/
def rootBlackB (t : NTree K V) : Bool := !IsRed t

/-- All keys of a subtree satisfy a predicate. -/
def AllKeys (p : K → Prop) (t : NTree K V) : Prop := ∀ x ∈ keysList t, p x

section Ordered

variable [LinearOrder K]

/-- Boolean binary-search-tree invariant: at every node, all left keys are
smaller and all right keys are larger. -/
def bstB : NTree K V → Bool
  | .nil => true
  | .node k _ l r _ =>
    ((keysList l).all fun x => decide (x < k)) &&
    ((keysList r).all fun x => decide (k < x)) &&
    bstB l && bstB r

end Ordered

/-- Operation sequence refuting the no-red-red/left-leaning invariant claim:
twelve inserts followed by one delete of a present key. -/
def seqC4 : List (Op Nat Nat) :=
  [.ins 5 5, .ins 8 8, .ins 4 4, .ins 0 0, .ins 7 7, .ins 9 9, .ins 3 3,
   .ins 6 6, .ins 2 2, .ins 11 11, .ins 10 10, .ins 1 1, .del 9]

/-- Operation sequence refuting the black-balance invariant claim: every
delete removes a key that is present at that point, and every operation
completes normally. -/
def seqC3 : List (Op Nat Nat) :=
  [.ins 14 14, .ins 3 3, .ins 1 1, .ins 11 11, .del 14, .ins 0 0, .del 11,
   .ins 15 15, .del 0, .ins 2 2, .del 3, .ins 13 13, .ins 12 12, .ins 6 6,
   .ins 5 5, .ins 9 9, .ins 4 4, .del 9, .ins 10 10, .ins 8 8, .ins 3 3,
   .ins 7 7, .del 12, .del 4]

/-- Ascending inserts of `1..=1000` followed by ascending deletes of
`1..=999`: all but the last operation of the thousand-element scenario. -/
def seqC5head : List (Op Nat Nat) :=
  ((List.range 1000).map fun i => Op.ins (i + 1) (i + 1)) ++
  ((List.range 999).map fun i => Op.del (i + 1))

end LLRB

namespace LLRB

variable {K V : Type}

/-- Claim C1: refuted.  The round-trip property fails: starting from the
empty tree (reachable), inserting key 2 and then key 1, `Tree.Search 1`
returns `(0, false)` even though key 1 was just inserted and is in the tree,
because `Search` descends toward the right child when the search key is
smaller. -/
theorem insert_search_roundtrip_fails :
    (((NewTree : Tree Nat Nat).Insert 2 5).bind fun t => t.Insert 1 10).map
        (fun t => t.Search 1) = some (0, false)
    ∧ (((NewTree : Tree Nat Nat).Insert 2 5).bind fun t => t.Insert 1 10).map
        (fun t => keysList t.root) = some [1, 2] :=
  ⟨by decide, by decide⟩

/-- Claim C2: refuted.  At a node whose key 2 is greater than the search
key 1, `Search` moves to the right child — the claim (and the spec) say it
moves right exactly when the search key is greater.  Consequently a tree
whose in-order keys are `[1, 2]` reports key 1 as absent. -/
theorem search_descends_right_on_smaller_key :
    (∀ (v : Nat) (l r : NTree Nat Nat) (b : Bool),
        Search (NTree.node 2 v l r b) 1 = Search r 1)
    ∧ Search (NTree.node 2 5 (NTree.node 1 10 .nil .nil false) .nil true) 1
        = (0, false)
    ∧ keysList (NTree.node 2 5 (NTree.node 1 10 (.nil : NTree Nat Nat) .nil false) .nil true)
        = [1, 2] := by
  refine ⟨fun v l r b => ?_, by decide, by decide⟩
  simp [Search]

/-- Claim C3: refuted.  `seqC3` is a sequence of public inserts and deletes
in which every operation completes normally starting from the empty tree,
yet the resulting tree is not black-balanced. -/
theorem black_balance_violated_by_reachable_tree :
    (applyOps NewTree seqC3).map (fun t => blackBalancedB t.root) = some false := by
  decide

/-- Claim C4: refuted.  `seqC4` is a sequence of public inserts and deletes
in which every operation completes normally starting from the empty tree,
yet the resulting tree has a red node with a red right child (so it is not
left-leaning and has two consecutive red links). -/
theorem red_invariants_violated_by_reachable_tree :
    (applyOps NewTree seqC4).map
        (fun t => noRedRedRightB t.root && noRedRedB t.root && rootBlackB t.root)
      = some false := by
  decide

/-- Claim C9: confirmed.  When the pivot (the child opposite `direction`)
exists, `Rotate` returns the pivot as new subtree root carrying the old
root's color, reattaches the old root — now red — as the pivot's
`direction`-side child, moves the pivot's former `direction`-side child to
the old root's opposite side, and leaves every other node untouched. -/
theorem rotate_effect (k xk : K) (v xv : V) (a xl xr : NTree K V) (b xb : Bool) :
    Rotate (.node k v a (.node xk xv xl xr xb) b) .left
      = some (.node xk xv (.node k v a xl false) xr b)
    ∧ Rotate (.node k v (.node xk xv xl xr xb) a b) .right
      = some (.node xk xv xl (.node k v xr a false) b) :=
  ⟨rfl, rfl⟩

end LLRB

namespace LLRB

variable {K V : Type}

/-- Claim C10: confirmed.  Whenever `Search` reports not-found, the value it
returns is the zero value of `V` (modelled by `default`). -/
theorem search_miss_returns_default [LinearOrder K] [Inhabited V]
    (t : NTree K V) (key : K) (h : (Search t key).2 = false) :
    (Search t key).1 = default := by
  induction t with
  | nil => rfl
  | node k v l r b ihl ihr =>
    by_cases hk : key = k
    · simp [Search, hk] at h
    · by_cases hlt : key < k
      · simpa [Search, hk, hlt] using ihr (by simpa [Search, hk, hlt] using h)
      · simpa [Search, hk, hlt] using ihl (by simpa [Search, hk, hlt] using h)

/-- Witness for claim C10 at a concrete tree and key. -/
theorem search_miss_returns_default_witness :
    (Search (NTree.node 2 5 (NTree.node 1 10 .nil .nil false) .nil true) 3).2 = false
    ∧ (Search (NTree.node 2 5 (NTree.node 1 10 .nil .nil false) .nil true) 3).1
        = default :=
  ⟨by decide, search_miss_returns_default _ 3 (by decide)⟩

/-- Claim C6: confirmed.  On a tree holding exactly one key, the recursive
`Delete` of that key returns the nil pointer, and the public handle then
recolors that nil root unconditionally, which dereferences nil: the public
`Delete` never completes normally when it would empty the tree. -/
theorem delete_on_singleton_never_completes [LinearOrder K]
    (k : K) (v : V) (b : Bool) :
    DeleteF (size (NTree.node k v .nil .nil b) + 1) (NTree.node k v .nil .nil b) k
      = some .nil
    ∧ Tree.Delete (⟨NTree.node k v .nil .nil b⟩ : Tree K V) k = none := by
  have h1 : DeleteF (size (NTree.node k v (.nil : NTree K V) .nil b) + 1)
      (NTree.node k v .nil .nil b) k = some .nil := by
    simp [size, DeleteF, lt_irrefl, IsRed, isNil]
  exact ⟨h1, by simp [Tree.Delete, h1, SetColor]⟩

end LLRB

namespace LLRB

variable {K V : Type}

/-- In-order entries of a node: left entries, the root entry, right entries. -/
theorem inorderE_node (k : K) (v : V) (l r : NTree K V) (b : Bool) :
    inorderE (.node k v l r b) = inorderE l ++ (k, v) :: inorderE r := rfl

/-- Key list of a node: left keys, the root key, right keys. -/
theorem keysList_node (k : K) (v : V) (l r : NTree K V) (b : Bool) :
    keysList (.node k v l r b) = keysList l ++ k :: keysList r := by
  simp [keysList, inorderE_node]

/-- Rotating (in either direction) permutes no entries: the in-order entry
list is unchanged. -/
theorem rotate_inorderE {t t' : NTree K V} {d : Direction}
    (h : Rotate t d = some t') : inorderE t' = inorderE t := by
  cases t with
  | nil => cases h
  | node k v l r b =>
    cases d with
    | left =>
      cases r with
      | nil => cases h
      | node xk xv xl xr xb =>
        simp only [Rotate, Option.some.injEq] at h
        subst h
        simp [inorderE_node, List.append_assoc]
    | right =>
      cases l with
      | nil => cases h
      | node xk xv xl xr xb =>
        simp only [Rotate, Option.some.injEq] at h
        subst h
        simp [inorderE_node, List.append_assoc]

/-- Toggling a root color changes no entries. -/
theorem flipRoot_inorderE (t : NTree K V) : inorderE (flipRoot t) = inorderE t := by
  cases t <;> simp [flipRoot, inorderE_node]

/-- A color flip changes no entries. -/
theorem flip_inorderE {t t' : NTree K V} (h : FlipColor t = some t') :
    inorderE t' = inorderE t := by
  cases t with
  | nil => cases h
  | node k v l r b =>
    simp only [FlipColor, Option.some.injEq] at h
    subst h
    simp [inorderE_node, flipRoot_inorderE]

/-- Step one of the fix-up changes no entries. -/
theorem fixup1_inorderE {t t' : NTree K V} (h : fixup1 t = some t') :
    inorderE t' = inorderE t := by
  unfold fixup1 at h
  split at h
  · exact rotate_inorderE h
  · exact congrArg inorderE (Option.some.inj h).symm

/-- Step two of the fix-up changes no entries. -/
theorem fixup2_inorderE {t t' : NTree K V} (h : fixup2 t = some t') :
    inorderE t' = inorderE t := by
  unfold fixup2 at h
  split at h
  · exact rotate_inorderE h
  · exact congrArg inorderE (Option.some.inj h).symm

/-- Step three of the fix-up changes no entries. -/
theorem fixup3_inorderE {t t' : NTree K V} (h : fixup3 t = some t') :
    inorderE t' = inorderE t := by
  unfold fixup3 at h
  split at h
  · exact flip_inorderE h
  · exact congrArg inorderE (Option.some.inj h).symm

/-- The whole fix-up changes no entries. -/
theorem fixup_inorderE {t t' : NTree K V} (h : FixUp t = some t') :
    inorderE t' = inorderE t := by
  cases t with
  | nil => cases h
  | node k v l r b =>
    unfold FixUp at h
    obtain ⟨r1, h1, h'⟩ := Option.bind_eq_some.mp h
    obtain ⟨r2, h2, h3⟩ := Option.bind_eq_some.mp h'
    exact (fixup3_inorderE h3).trans ((fixup2_inorderE h2).trans (fixup1_inorderE h1))

/-- The whole fix-up changes no keys. -/
theorem fixup_keysList {t t' : NTree K V} (h : FixUp t = some t') :
    keysList t' = keysList t :=
  congrArg (List.map Prod.fst) (fixup_inorderE h)

end LLRB

namespace LLRB

variable {K V : Type}

/-- Splitting `AllKeys` at a node. -/
theorem allKeys_node {p : K → Prop} {k : K} {v : V} {l r : NTree K V} {b : Bool} :
    AllKeys p (.node k v l r b) ↔ AllKeys p l ∧ p k ∧ AllKeys p r := by
  simp only [AllKeys, keysList_node, List.mem_append, List.mem_cons]
  constructor
  · intro h
    exact ⟨fun x hx => h x (Or.inl hx), h k (Or.inr (Or.inl rfl)),
           fun x hx => h x (Or.inr (Or.inr hx))⟩
  · rintro ⟨h1, h2, h3⟩ x (hx | rfl | hx)
    · exact h1 x hx
    · exact h2
    · exact h3 x hx

/-- `AllKeys` is monotone in the predicate. -/
theorem allKeys_mono {p q : K → Prop} {t : NTree K V} (hpq : ∀ x, p x → q x)
    (h : AllKeys p t) : AllKeys q t := fun x hx => hpq x (h x hx)

/-- `AllKeys` only depends on the key list. -/
theorem allKeys_of_keysList {p : K → Prop} {t t' : NTree K V}
    (hk : keysList t' = keysList t) (h : AllKeys p t) : AllKeys p t' :=
  fun x hx => h x (hk ▸ hx)

section Ordered

variable [LinearOrder K]

/-- Splitting the Boolean BST invariant at a node. -/
theorem bstB_node {k : K} {v : V} {l r : NTree K V} {b : Bool} :
    bstB (.node k v l r b) = true
      ↔ AllKeys (· < k) l ∧ AllKeys (k < ·) r ∧ bstB l = true ∧ bstB r = true := by
  simp [bstB, AllKeys, List.all_eq_true, and_assoc]

/-- The BST invariant ignores the root color. -/
theorem flipRoot_bstB (t : NTree K V) : bstB (flipRoot t) = bstB t := by
  cases t <;> simp [flipRoot, bstB]

/-- Rotating preserves the BST invariant. -/
theorem rotate_bstB {t t' : NTree K V} {d : Direction}
    (h : Rotate t d = some t') (hb : bstB t = true) : bstB t' = true := by
  cases t with
  | nil => cases h
  | node k v l r b =>
    cases d with
    | left =>
      cases r with
      | nil => cases h
      | node rk rv rl rr rb =>
        simp only [Rotate, Option.some.injEq] at h
        subst h
        obtain ⟨hl, hr, bl, br⟩ := bstB_node.mp hb
        obtain ⟨hrl, hkrk, hrr⟩ := allKeys_node.mp hr
        obtain ⟨brl_all, brr_all, brl, brr⟩ := bstB_node.mp br
        exact bstB_node.mpr
          ⟨allKeys_node.mpr
              ⟨allKeys_mono (fun x hx => lt_trans hx hkrk) hl, hkrk, brl_all⟩,
           brr_all, bstB_node.mpr ⟨hl, hrl, bl, brl⟩, brr⟩
    | right =>
      cases l with
      | nil => cases h
      | node lk lv ll lr lb =>
        simp only [Rotate, Option.some.injEq] at h
        subst h
        obtain ⟨hl, hr, bl, br⟩ := bstB_node.mp hb
        obtain ⟨hll, hlkk, hlr⟩ := allKeys_node.mp hl
        obtain ⟨bll_all, blr_all, bll, blr⟩ := bstB_node.mp bl
        exact bstB_node.mpr
          ⟨bll_all,
           allKeys_node.mpr
              ⟨blr_all, hlkk, allKeys_mono (fun x hx => lt_trans hlkk hx) hr⟩,
           bll, bstB_node.mpr ⟨hlr, hr, blr, br⟩⟩

/-- A color flip preserves the BST invariant. -/
theorem flip_bstB {t t' : NTree K V} (h : FlipColor t = some t')
    (hb : bstB t = true) : bstB t' = true := by
  cases t with
  | nil => cases h
  | node k v l r b =>
    simp only [FlipColor, Option.some.injEq] at h
    subst h
    obtain ⟨hl, hr, bl, br⟩ := bstB_node.mp hb
    refine bstB_node.mpr ⟨?_, ?_, ?_, ?_⟩
    · exact allKeys_of_keysList (congrArg (List.map Prod.fst) (flipRoot_inorderE l)) hl
    · exact allKeys_of_keysList (congrArg (List.map Prod.fst) (flipRoot_inorderE r)) hr
    · rw [flipRoot_bstB]; exact bl
    · rw [flipRoot_bstB]; exact br

/-- The three fix-up steps preserve the BST invariant. -/
theorem fixup_steps_bstB {t t' : NTree K V}
    (h : fixup1 t = some t' ∨ fixup2 t = some t' ∨ fixup3 t = some t')
    (hb : bstB t = true) : bstB t' = true := by
  rcases h with h | h | h
  · unfold fixup1 at h
    split at h
    · exact rotate_bstB h hb
    · exact (Option.some.inj h) ▸ hb
  · unfold fixup2 at h
    split at h
    · exact rotate_bstB h hb
    · exact (Option.some.inj h) ▸ hb
  · unfold fixup3 at h
    split at h
    · exact flip_bstB h hb
    · exact (Option.some.inj h) ▸ hb

/-- The whole fix-up preserves the BST invariant. -/
theorem fixup_bstB {t t' : NTree K V} (h : FixUp t = some t')
    (hb : bstB t = true) : bstB t' = true := by
  cases t with
  | nil => cases h
  | node k v l r b =>
    unfold FixUp at h
    obtain ⟨r1, h1, h'⟩ := Option.bind_eq_some.mp h
    obtain ⟨r2, h2, h3⟩ := Option.bind_eq_some.mp h'
    exact fixup_steps_bstB (Or.inr (Or.inr h3))
      (fixup_steps_bstB (Or.inr (Or.inl h2))
        (fixup_steps_bstB (Or.inl h1) hb))

end Ordered

end LLRB

namespace LLRB

variable {K V : Type}

/-- Step one of the fix-up succeeds on any non-nil tree and returns a
non-nil tree. -/
theorem fixup1_some {t : NTree K V} (hne : t ≠ .nil) :
    ∃ t', fixup1 t = some t' ∧ t' ≠ .nil := by
  by_cases hc : IsRed (rightT t)
  · cases t with
    | nil => exact absurd rfl hne
    | node k v l r b =>
      cases r with
      | nil => simp [rightT, IsRed] at hc
      | node rk rv rl rr rb =>
        simp only [rightT] at hc
        refine ⟨.node rk rv (.node k v l rl false) rr b, ?_, by simp⟩
        simp [fixup1, rightT, hc, Rotate]
  · exact ⟨t, by simp [fixup1, hc], hne⟩

/-- Step two of the fix-up always succeeds and preserves non-nilness. -/
theorem fixup2_some (t : NTree K V) :
    ∃ t', fixup2 t = some t' ∧ (t ≠ .nil → t' ≠ .nil) := by
  by_cases hc : IsRed (leftT t) && IsRed (leftT (leftT t))
  · cases t with
    | nil => simp [leftT, IsRed] at hc
    | node k v l r b =>
      cases l with
      | nil => simp [leftT, IsRed] at hc
      | node lk lv ll lr lb =>
        simp only [leftT] at hc
        refine ⟨.node lk lv ll (.node k v lr r false) b, ?_, fun _ => by simp⟩
        simp [fixup2, leftT, hc, Rotate]
  · exact ⟨t, by simp [fixup2, hc], fun h => h⟩

/-- Step three of the fix-up always succeeds and preserves non-nilness. -/
theorem fixup3_some (t : NTree K V) :
    ∃ t', fixup3 t = some t' ∧ (t ≠ .nil → t' ≠ .nil) := by
  by_cases hc : IsRed (leftT t) && IsRed (rightT t)
  · cases t with
    | nil => simp [leftT, IsRed] at hc
    | node k v l r b =>
      refine ⟨.node k v (flipRoot l) (flipRoot r) (!b), ?_, fun _ => by simp⟩
      simp [fixup3, hc, FlipColor]
  · exact ⟨t, by simp [fixup3, hc], fun h => h⟩

/-- The whole fix-up succeeds on any non-nil tree, with a non-nil result. -/
theorem fixup_some {t : NTree K V} (hne : t ≠ .nil) :
    ∃ t', FixUp t = some t' ∧ t' ≠ .nil := by
  cases t with
  | nil => exact absurd rfl hne
  | node k v l r b =>
    obtain ⟨t1, h1, hn1⟩ := fixup1_some (t := .node k v l r b) (by simp)
    obtain ⟨t2, h2, hn2⟩ := fixup2_some t1
    obtain ⟨t3, h3, hn3⟩ := fixup3_some t2
    exact ⟨t3, by simp [FixUp, h1, h2, h3], hn3 (hn2 hn1)⟩

section Ordered

variable [LinearOrder K]

/-- `Insert` always succeeds and returns a non-nil tree. -/
theorem insert_some (t : NTree K V) (key : K) (val : V) :
    ∃ t', Insert t key val = some t' ∧ t' ≠ .nil := by
  induction t with
  | nil => exact ⟨.node key val .nil .nil false, rfl, by simp⟩
  | node k v l r b ihl ihr =>
    by_cases hk : key = k
    · obtain ⟨t', h, hn⟩ := fixup_some (t := .node k val l r b) (by simp)
      refine ⟨t', ?_, hn⟩
      simp only [Insert, if_pos hk]
      exact h
    · by_cases hlt : key < k
      · obtain ⟨l', hl, _⟩ := ihl
        obtain ⟨t', h, hn⟩ := fixup_some (t := .node k v l' r b) (by simp)
        refine ⟨t', ?_, hn⟩
        simp only [Insert, if_neg hk, if_pos hlt, hl]
        exact h
      · obtain ⟨r', hr, _⟩ := ihr
        obtain ⟨t', h, hn⟩ := fixup_some (t := .node k v l r' b) (by simp)
        refine ⟨t', ?_, hn⟩
        simp only [Insert, if_neg hk, if_neg hlt, hr]
        exact h

/-- Every key of the tree returned by `Insert` is the inserted key or a key
of the input tree. -/
theorem insert_keys_sub {t t' : NTree K V} {key : K} {val : V}
    (h : Insert t key val = some t') :
    ∀ x ∈ keysList t', x = key ∨ x ∈ keysList t := by
  induction t generalizing t' with
  | nil =>
    simp only [Insert, Option.some.injEq] at h
    subst h
    intro x hx
    simp only [keysList, inorderE, List.nil_append, List.map_cons, List.map_nil,
      List.mem_singleton] at hx
    exact Or.inl hx
  | node k v l r b ihl ihr =>
    by_cases hk : key = k
    · simp only [Insert, if_pos hk] at h
      intro x hx
      rw [fixup_keysList h, keysList_node] at hx
      right
      rw [keysList_node]
      exact hx
    · by_cases hlt : key < k
      · cases hins : Insert l key val with
        | none =>
          simp only [Insert, if_neg hk, if_pos hlt, hins] at h
          exact Option.noConfusion h
        | some l' =>
          simp only [Insert, if_neg hk, if_pos hlt, hins] at h
          intro x hx
          rw [fixup_keysList h, keysList_node] at hx
          rcases List.mem_append.mp hx with hx | hx
          · rcases ihl hins x hx with h1 | h1
            · exact Or.inl h1
            · right; rw [keysList_node]; exact List.mem_append_left _ h1
          · right; rw [keysList_node]; exact List.mem_append_right _ hx
      · cases hins : Insert r key val with
        | none =>
          simp only [Insert, if_neg hk, if_neg hlt, hins] at h
          exact Option.noConfusion h
        | some r' =>
          simp only [Insert, if_neg hk, if_neg hlt, hins] at h
          intro x hx
          rw [fixup_keysList h, keysList_node] at hx
          rcases List.mem_append.mp hx with hx | hx
          · right; rw [keysList_node]; exact List.mem_append_left _ hx
          · rcases List.mem_cons.mp hx with rfl | hx
            · right; rw [keysList_node]
              exact List.mem_append_right _ (List.mem_cons_self _ _)
            · rcases ihr hins x hx with h1 | h1
              · exact Or.inl h1
              · right; rw [keysList_node]
                exact List.mem_append_right _ (List.mem_cons_of_mem _ h1)

/-- `Insert` preserves the BST invariant. -/
theorem insert_bstB {t t' : NTree K V} {key : K} {val : V}
    (h : Insert t key val = some t') (hb : bstB t = true) : bstB t' = true := by
  induction t generalizing t' with
  | nil =>
    simp only [Insert, Option.some.injEq] at h
    subst h
    simp [bstB, keysList, inorderE]
  | node k v l r b ihl ihr =>
    by_cases hk : key = k
    · simp only [Insert, if_pos hk] at h
      exact fixup_bstB h (bstB_node.mpr (bstB_node.mp hb))
    · by_cases hlt : key < k
      · cases hins : Insert l key val with
        | none =>
          simp only [Insert, if_neg hk, if_pos hlt, hins] at h
          exact Option.noConfusion h
        | some l' =>
          simp only [Insert, if_neg hk, if_pos hlt, hins] at h
          obtain ⟨hl, hr, bl, br⟩ := bstB_node.mp hb
          apply fixup_bstB h
          refine bstB_node.mpr ⟨?_, hr, ihl hins bl, br⟩
          intro x hx
          rcases insert_keys_sub hins x hx with rfl | hx'
          · exact hlt
          · exact hl x hx'
      · have hgt : k < key := lt_of_le_of_ne (not_lt.mp hlt) (Ne.symm hk)
        cases hins : Insert r key val with
        | none =>
          simp only [Insert, if_neg hk, if_neg hlt, hins] at h
          exact Option.noConfusion h
        | some r' =>
          simp only [Insert, if_neg hk, if_neg hlt, hins] at h
          obtain ⟨hl, hr, bl, br⟩ := bstB_node.mp hb
          apply fixup_bstB h
          refine bstB_node.mpr ⟨hl, ?_, bl, ihr hins br⟩
          intro x hx
          rcases insert_keys_sub hins x hx with rfl | hx'
          · exact hgt
          · exact hr x hx'

/-- A tree with the BST invariant has a strictly increasing in-order key
list. -/
theorem bstB_sorted {t : NTree K V} (hb : bstB t = true) :
    List.Sorted (· < ·) (keysList t) := by
  induction t with
  | nil => simp [keysList, inorderE]
  | node k v l r b ihl ihr =>
    obtain ⟨hl, hr, bl, br⟩ := bstB_node.mp hb
    rw [keysList_node]
    refine List.pairwise_append.mpr ⟨ihl bl, List.pairwise_cons.mpr ⟨hr, ihr br⟩, ?_⟩
    intro x hx y hy
    rcases List.mem_cons.mp hy with rfl | hy
    · exact hl x hx
    · exact lt_trans (hl x hx) (hr y hy)

end Ordered

end LLRB

namespace LLRB

variable {K V : Type}

/-- `SetColor` keeps the BST invariant and the key list. -/
theorem setColor_bstB [LinearOrder K] {t t' : NTree K V} {c : Color}
    (h : SetColor t c = some t') :
    bstB t' = bstB t ∧ keysList t' = keysList t := by
  cases t with
  | nil => cases h
  | node k v l r b =>
    cases c <;>
      (simp only [SetColor, Option.some.injEq] at h; subst h; exact ⟨rfl, rfl⟩)

section Ordered

variable [LinearOrder K] [Inhabited V]

/-- The public `Insert` preserves the BST invariant of the root. -/
theorem treeInsert_bstB {t t' : Tree K V} {key : K} {val : V}
    (h : Tree.Insert t key val = some t') (hb : bstB t.root = true) :
    bstB t'.root = true := by
  unfold Tree.Insert at h
  cases hi : LLRB.Insert t.root key val with
  | none =>
    simp only [hi] at h
    exact Option.noConfusion h
  | some root =>
    simp only [hi] at h
    cases hsc : SetColor root .black with
    | none =>
      simp only [hsc] at h
      exact Option.noConfusion h
    | some root' =>
      simp only [hsc, Option.some.injEq] at h
      subst h
      have h2 := (setColor_bstB hsc).1
      show bstB root' = true
      rw [h2]
      exact insert_bstB hi hb

/-- Folding public inserts preserves the BST invariant of the root. -/
theorem applyOps_ins_bstB :
    ∀ (ps : List (K × V)) (t0 t : Tree K V),
      bstB t0.root = true →
      applyOps t0 (ps.map fun p => Op.ins p.1 p.2) = some t →
      bstB t.root = true := by
  intro ps
  induction ps with
  | nil =>
    intro t0 t hb h
    simp only [List.map_nil, applyOps, Option.some.injEq] at h
    exact h ▸ hb
  | cons p ps ih =>
    intro t0 t hb h
    simp only [List.map_cons, applyOps, applyOp] at h
    cases hins : Tree.Insert t0 p.1 p.2 with
    | none => rw [hins] at h; exact Option.noConfusion h
    | some t1 =>
      rw [hins] at h
      exact ih t1 t (treeInsert_bstB hins hb) h

end Ordered

/-- Claim C8: confirmed.  For every sequence of public inserts applied to the
empty tree that completes, the in-order traversal of the resulting tree
yields its keys in strictly increasing order: the BST ordering survives the
rotations and color flips of the insertion fix-up. -/
theorem inserts_keep_inorder_strictly_increasing [LinearOrder K] [Inhabited V]
    (ps : List (K × V)) (t : Tree K V)
    (h : applyOps NewTree (ps.map fun p => Op.ins p.1 p.2) = some t) :
    List.Sorted (· < ·) (keysList t.root) :=
  bstB_sorted (applyOps_ins_bstB ps NewTree t rfl h)

/-- Witness for claim C8 at a concrete insert sequence. -/
theorem inserts_keep_inorder_strictly_increasing_witness :
    applyOps NewTree ([(2, 0), (1, 1), (3, 3)].map fun p => Op.ins p.1 p.2)
        = some (⟨.node 2 0 (.node 1 1 .nil .nil true) (.node 3 3 .nil .nil true) true⟩ : Tree Nat Nat)
    ∧ List.Sorted (· < ·) (keysList
        (NTree.node 2 0 (.node 1 1 .nil .nil true) (.node 3 3 .nil .nil true) true)) :=
  ⟨rfl, inserts_keep_inorder_strictly_increasing [(2, 0), (1, 1), (3, 3)] _ rfl⟩

end LLRB

namespace LLRB

variable {K V : Type}

/-- Replacing the value at a key not occurring in an entry list is the
identity. -/
theorem map_entries_id [DecidableEq K] {k : K} {v₂ : V} :
    ∀ (es : List (K × V)), (∀ p ∈ es, p.1 ≠ k) →
      es.map (fun p => if p.1 = k then (k, v₂) else p) = es := by
  intro es h
  induction es with
  | nil => rfl
  | cons p es ih =>
    rw [List.map_cons, if_neg (h p (List.mem_cons_self p es)),
      ih fun q hq => h q (List.mem_cons_of_mem _ hq)]

section Ordered

variable [LinearOrder K]

/-- Core of claim C7: inserting a key that the BST already holds succeeds,
and the in-order entry list of the result is the input's entry list with the
value at that key replaced. -/
theorem insert_overwrite_core (k : K) (v₂ : V) :
    ∀ (t : NTree K V), bstB t = true → k ∈ keysList t →
      ∃ t', Insert t k v₂ = some t'
        ∧ inorderE t' = (inorderE t).map (fun p => if p.1 = k then (k, v₂) else p) := by
  intro t
  induction t with
  | nil => intro _ hm; simp [keysList, inorderE] at hm
  | node k' v' l r b ihl ihr =>
    intro hb hm
    obtain ⟨hl, hr, bl, br⟩ := bstB_node.mp hb
    by_cases hk : k = k'
    · subst hk
      obtain ⟨t', ht, _⟩ := fixup_some (t := .node k v₂ l r b) (by simp)
      refine ⟨t', by simp only [Insert, if_pos rfl]; exact ht, ?_⟩
      have hml : ∀ p ∈ inorderE l, p.1 ≠ k :=
        fun p hp => ne_of_lt (hl p.1 (List.mem_map_of_mem Prod.fst hp))
      have hmr : ∀ p ∈ inorderE r, p.1 ≠ k :=
        fun p hp => ne_of_gt (hr p.1 (List.mem_map_of_mem Prod.fst hp))
      rw [fixup_inorderE ht, inorderE_node, inorderE_node, List.map_append,
        List.map_cons, map_entries_id _ hml, map_entries_id _ hmr]
      simp
    · by_cases hlt : k < k'
      · have hml : k ∈ keysList l := by
          rw [keysList_node] at hm
          rcases List.mem_append.mp hm with h1 | h1
          · exact h1
          · rcases List.mem_cons.mp h1 with h2 | h2
            · exact absurd h2 hk
            · exact absurd (hr k h2) (lt_asymm hlt)
        obtain ⟨l', hl', hio⟩ := ihl bl hml
        obtain ⟨t', ht, _⟩ := fixup_some (t := .node k' v' l' r b) (by simp)
        refine ⟨t', by simp only [Insert, if_neg hk, if_pos hlt, hl']; exact ht, ?_⟩
        have hmr : ∀ p ∈ inorderE r, p.1 ≠ k :=
          fun p hp =>
            ne_of_gt (lt_trans hlt (hr p.1 (List.mem_map_of_mem Prod.fst hp)))
        have hroot : ¬((k' : K) = k) := fun h => hk h.symm
        rw [fixup_inorderE ht, inorderE_node, inorderE_node, List.map_append,
          List.map_cons, hio, map_entries_id _ hmr]
        simp [hroot]
      · have hgt : k' < k := lt_of_le_of_ne (not_lt.mp hlt) (Ne.symm hk)
        have hmr : k ∈ keysList r := by
          rw [keysList_node] at hm
          rcases List.mem_append.mp hm with h1 | h1
          · exact absurd (hl k h1) (lt_asymm hgt)
          · rcases List.mem_cons.mp h1 with h2 | h2
            · exact absurd h2 hk
            · exact h2
        obtain ⟨r', hr', hio⟩ := ihr br hmr
        obtain ⟨t', ht, _⟩ := fixup_some (t := .node k' v' l r' b) (by simp)
        refine ⟨t', by simp only [Insert, if_neg hk, if_neg hlt, hr']; exact ht, ?_⟩
        have hml : ∀ p ∈ inorderE l, p.1 ≠ k :=
          fun p hp =>
            ne_of_lt (lt_trans (hl p.1 (List.mem_map_of_mem Prod.fst hp)) hgt)
        have hroot : ¬((k' : K) = k) := fun h => hk h.symm
        rw [fixup_inorderE ht, inorderE_node, inorderE_node, List.map_append,
          List.map_cons, hio, map_entries_id _ hml]
        simp [hroot]

/-- Claim C7: confirmed.  Inserting a key already present in a BST-ordered
tree overwrites the stored value: the result's entries are the input's with
the value at that key replaced, the key list (hence the key set and the node
count) is unchanged, and exactly one node holds that key, with the new
value. -/
theorem insert_overwrites_existing_key (t : NTree K V) (k : K) (v₂ : V)
    (hb : bstB t = true) (hm : k ∈ keysList t) :
    ∃ t', Insert t k v₂ = some t'
      ∧ inorderE t' = (inorderE t).map (fun p => if p.1 = k then (k, v₂) else p)
      ∧ keysList t' = keysList t
      ∧ (inorderE t').length = (inorderE t).length
      ∧ (keysList t').count k = 1 := by
  obtain ⟨t', ht, hio⟩ := insert_overwrite_core k v₂ t hb hm
  have hkeys : keysList t' = keysList t := by
    show (inorderE t').map Prod.fst = keysList t
    rw [hio, List.map_map]
    have : ∀ p ∈ inorderE t,
        (Prod.fst ∘ fun p => if p.1 = k then (k, v₂) else p) p = Prod.fst p := by
      intro p _
      by_cases hp : p.1 = k
      · simp [hp]
      · simp [hp]
    exact List.map_congr_left this
  refine ⟨t', ht, hio, hkeys, ?_, ?_⟩
  · rw [hio, List.length_map]
  · rw [hkeys]
    exact List.count_eq_one_of_mem (bstB_sorted hb).nodup hm

end Ordered

end LLRB

namespace LLRB

/-- Witness for claim C7 at a concrete tree, key and value. -/
theorem insert_overwrites_existing_key_witness :
    bstB (NTree.node 2 5 (NTree.node 1 7 .nil .nil false) (.nil : NTree Nat Nat) true) = true
    ∧ (1 : Nat) ∈ keysList (NTree.node 2 5 (NTree.node 1 7 (.nil : NTree Nat Nat) .nil false) .nil true)
    ∧ ∃ t', Insert (NTree.node 2 5 (NTree.node 1 7 (.nil : NTree Nat Nat) .nil false) .nil true) 1 9
          = some t'
        ∧ inorderE t'
          = (inorderE (NTree.node 2 5 (NTree.node 1 7 (.nil : NTree Nat Nat) .nil false) .nil true)).map
              (fun p => if p.1 = 1 then (1, 9) else p)
        ∧ keysList t'
          = keysList (NTree.node 2 5 (NTree.node 1 7 (.nil : NTree Nat Nat) .nil false) .nil true)
        ∧ (inorderE t').length
          = (inorderE (NTree.node 2 5 (NTree.node 1 7 (.nil : NTree Nat Nat) .nil false) .nil true)).length
        ∧ (keysList t').count 1 = 1 :=
  ⟨by decide, by decide,
   insert_overwrites_existing_key _ 1 9 (by decide) (by decide)⟩

set_option maxRecDepth 1000000
set_option maxHeartbeats 8000000

/-- Claim C5: refuted on its last step.  Running the scenario's first 1999
operations (insert `1..=1000` ascending, delete `1..=999` ascending) from
the empty tree, every operation completes and the remaining tree holds
exactly the key 1000; the scenario's final operation, `Delete 1000`, panics
(the handle recolors the nil root) instead of leaving the tree empty, so the
scenario never completes. -/
theorem thousand_scenario_last_delete_panics :
    (applyOps NewTree seqC5head).map
        (fun t => (decide (keysList t.root = [1000]), (t.Delete 1000).isSome))
      = some (true, false) := by
  decide

end LLRB
